import Mathlib

/-!
Verification of the TLS session persistence core (`src/tls/tls_session.cpp`):
the session record, its DER codec (`Session::Session(const byte[], size_t)` /
`Session::DER_encode`), and the authenticated-encryption envelope
(`Session::encrypt` / `Session::decrypt`).

Bytes are modelled as `Nat` (with `< 256` side conditions where they matter),
byte buffers as `List Nat`.  The DER/BER primitives, the X.509 certificate
codec and the cryptographic primitives (KDF2, AES-256/CBC, HMAC(SHA-256))
live outside the translated source file; they are modelled from the spec,
as marked on each such definition.
-/

set_option maxHeartbeats 1000000
set_option maxRecDepth 8000

/-! ## Big-endian byte strings -/

/-- Minimal big-endian base-256 digits of `n`, with explicit fuel so that the
recursion is structural (the fuel `n` always suffices since `n / 256 < n`). -/
def beBytesF : Nat → Nat → List Nat
  | 0, _ => []
  | f + 1, n => if n = 0 then [] else beBytesF f (n / 256) ++ [n % 256]

/-- Minimal big-endian base-256 digits of `n` (`beBytes 0 = []`). -/
def beBytes (n : Nat) : List Nat := beBytesF n n

/-- Value of a big-endian byte string, as `load_be` does for 4 bytes. -/
def beVal (l : List Nat) : Nat := l.foldl (fun a b => 256 * a + b) 0

/-! ## DER primitives

Modelled from the spec: the original uses Botan's `DER_Encoder` /
`BER_Decoder` (`der_enc.h` / `ber_dec.h`, not part of the translated source).
The spec (§4.2, §9) describes them as a small closed set of tagged,
length-prefixed writer/reader primitives for integers, byte strings and text
strings; we realise them as standard DER TLV encoding: one tag byte, a
definite length (short form below 128, long form otherwise), then content. -/

/-- DER definite-length encoding of a content length. -/
def encLen (n : Nat) : List Nat :=
  if n < 128 then [n] else (128 + (beBytes n).length) :: beBytes n

/-- Read a DER definite length; returns the length and the remaining input. -/
def decLen : List Nat → Option (Nat × List Nat)
  | [] => none
  | b :: r =>
    if b < 128 then some (b, r)
    else
      let k := b - 128
      if k = 0 then none
      else if k ≤ r.length then some (beVal (r.take k), r.drop k) else none

/-- Encode one tagged value: tag byte, length, content. -/
def encTLV (t : Nat) (c : List Nat) : List Nat := t :: (encLen c.length ++ c)

/-- Read one tagged value with the expected tag; returns content and rest. -/
def readTLV (t : Nat) : List Nat → Option (List Nat × List Nat)
  | [] => none
  | b :: r =>
    if b = t then
      match decLen r with
      | none => none
      | some (n, r2) =>
        if n ≤ r2.length then some (r2.take n, r2.drop n) else none
    else none

/-- Content octets of a DER INTEGER for a non-negative value: minimal
big-endian digits, with a leading zero octet when the high bit is set. -/
def intBytes (n : Nat) : List Nat :=
  if n = 0 then [0]
  else if 128 ≤ (beBytes n).headD 0 then 0 :: beBytes n else beBytes n

/-- Encode a non-negative integer (tag `0x02`), as `DER_Encoder::encode(size_t)`. -/
def encInt (n : Nat) : List Nat := encTLV 2 (intBytes n)

/-- Decode an integer field, as `BER_Decoder::decode_integer_type`. -/
def readInt (l : List Nat) : Option (Nat × List Nat) :=
  match readTLV 2 l with
  | none => none
  | some (c, r) => some (beVal c, r)

/-! ## The session record and its codec -/

/-- The fields of `Botan::TLS::Session`.  Byte sequences are `List Nat`;
the creation time is seconds since the epoch (the codec stores
`to_time_t(m_start_time)`, i.e. seconds resolution); certificates are kept
as their opaque content bytes (see `certBER` below); the connection side is
the numeric value of the `Connection_Side` enum; hostname, service and SRP
identifier are strings kept as their byte sequences. -/
structure SessionRecord where
  start_time : Nat
  identifier : List Nat
  ticket : List Nat
  master_secret : List Nat
  version_major : Nat
  version_minor : Nat
  ciphersuite : Nat
  compression_method : Nat
  connection_side : Nat
  fragment_size : Nat
  peer_certs : List (List Nat)
  hostname : List Nat
  service : List Nat
  port : Nat
  srp_identifier : List Nat
deriving DecidableEq, Repr

/-- Modelled from the spec: `TLS_SESSION_PARAM_STRUCT_VERSION` is declared in
`tls_session.h`, which is not part of the translated source; the spec only
requires a fixed format-version constant, checked on decode.  The value here
is the header's value in this Botan line. -/
def TLS_SESSION_PARAM_STRUCT_VERSION : Nat := 0x2994e301

/-- Modelled from the spec: `X509_Certificate::BER_encode` is external to the
translated source.  Per the spec's certificate-codec capability, each
certificate encodes to a self-delimiting blob and `decode_one` consumes
exactly one certificate from the front of a buffer; an X.509 certificate is
a DER SEQUENCE, so a certificate is modelled by its content octets and its
encoding as the SEQUENCE (tag `0x30`) TLV around them. -/
def certBER (c : List Nat) : List Nat := encTLV 0x30 c

/-- The concatenated `peer_cert_bits`, as built in `Session::DER_encode`. -/
def certsBytes (cs : List (List Nat)) : List Nat := (cs.map certBER).flatten

/-- Re-split `peer_cert_bits` by repeatedly parsing one certificate until the
buffer is exhausted, as the `while(!certs.end_of_data())` loop of the decode
constructor.  Fuel bounds the recursion; `bytes.length` always suffices. -/
def splitCerts : Nat → List Nat → Option (List (List Nat))
  | _, [] => some []
  | 0, _ :: _ => none
  | fuel + 1, x :: r0 =>
    match readTLV 0x30 (x :: r0) with
    | none => none
    | some (c, r) =>
      match splitCerts fuel r with
      | none => none
      | some cs => some (c :: cs)

/-- The content of the outer SEQUENCE written by `Session::DER_encode`:
the sixteen fields, in source order. -/
def fieldsBytes (R : SessionRecord) : List Nat :=
  encInt TLS_SESSION_PARAM_STRUCT_VERSION ++
  encInt R.start_time ++
  encInt R.version_major ++
  encInt R.version_minor ++
  encTLV 4 R.identifier ++
  encTLV 4 R.ticket ++
  encInt R.ciphersuite ++
  encInt R.compression_method ++
  encInt R.connection_side ++
  encInt R.fragment_size ++
  encTLV 4 R.master_secret ++
  encTLV 4 (certsBytes R.peer_certs) ++
  encTLV 12 R.hostname ++
  encTLV 12 R.service ++
  encInt R.port ++
  encTLV 12 R.srp_identifier

/-- `Session::DER_encode`: the record as one DER SEQUENCE. -/
def DER_encode (R : SessionRecord) : List Nat := encTLV 0x30 (fieldsBytes R)

/-- Decode the sixteen fields from the SEQUENCE content, in source order,
checking the structure version first (`decode_and_check`, "Unknown version
in session structure") and requiring the content to be fully consumed
(`end_cons`). -/
def decodeFields (l0 : List Nat) : Option SessionRecord :=
  match readInt l0 with
  | none => none
  | some (v, l1) =>
    if v ≠ TLS_SESSION_PARAM_STRUCT_VERSION then none
    else
      match readInt l1 with
      | none => none
      | some (start_time, l2) =>
        match readInt l2 with
        | none => none
        | some (major, l3) =>
          match readInt l3 with
          | none => none
          | some (minor, l4) =>
            match readTLV 4 l4 with
            | none => none
            | some (ident, l5) =>
              match readTLV 4 l5 with
              | none => none
              | some (ticket, l6) =>
                match readInt l6 with
                | none => none
                | some (csuite, l7) =>
                  match readInt l7 with
                  | none => none
                  | some (comp, l8) =>
                    match readInt l8 with
                    | none => none
                    | some (side, l9) =>
                      match readInt l9 with
                      | none => none
                      | some (frag, l10) =>
                        match readTLV 4 l10 with
                        | none => none
                        | some (master, l11) =>
                          match readTLV 4 l11 with
                          | none => none
                          | some (certBits, l12) =>
                            match readTLV 12 l12 with
                            | none => none
                            | some (host, l13) =>
                              match readTLV 12 l13 with
                              | none => none
                              | some (serv, l14) =>
                                match readInt l14 with
                                | none => none
                                | some (port, l15) =>
                                  match readTLV 12 l15 with
                                  | none => none
                                  | some (srp, l16) =>
                                    if l16 ≠ [] then none
                                    else
                                      match splitCerts certBits.length certBits with
                                      | none => none
                                      | some certs =>
                                        some {
                                          start_time := start_time
                                          identifier := ident
                                          ticket := ticket
                                          master_secret := master
                                          version_major := major
                                          version_minor := minor
                                          ciphersuite := csuite
                                          compression_method := comp
                                          connection_side := side
                                          fragment_size := frag
                                          peer_certs := certs
                                          hostname := host
                                          service := serv
                                          port := port
                                          srp_identifier := srp }

/-- `Session::Session(const byte[], size_t)`: decode one outer SEQUENCE,
require no trailing bytes (`verify_end`), then decode the fields. -/
def Session_decode (bytes : List Nat) : Option SessionRecord :=
  match readTLV 0x30 bytes with
  | none => none
  | some (content, rest) =>
    if rest ≠ [] then none else decodeFields content

/-! ## Modelled cryptographic primitives

`get_kdf(KDF2(SHA-256))`, `get_mac(HMAC(SHA-256))` and
`get_cipher(AES-256/CBC)` resolve to primitives outside the translated
source; the spec (§1, §6) treats them as injected capabilities.  They are
modelled concretely below, keeping the interface shapes and the properties
the spec relies on (determinism, fixed output sizes, inversion, and the
tamper-sensitivity a real MAC provides computationally). -/

instance : Fact (Nat.Prime 251) := ⟨by norm_num⟩

/-- A polynomial hash over the prime field `ZMod 251`: byte `i` (0-based)
contributes with coefficient `2^(i+1)`.  Any change of a single byte by
`±2^k` (`k < 8`) changes the value, which models the second-preimage
resistance the spec assumes of the MAC. -/
def polyZ : List Nat → ZMod 251
  | [] => 0
  | b :: t => 2 * ((b : ZMod 251) + polyZ t)

/-- Modelled from the spec: the key-derivation capability
`derive(output_len, input_key_material, salt)` (KDF2(SHA-256), external).
Deterministic, output of `output_len` bytes; the salt is embedded
recoverably, standing in for the per-salt independence of a real KDF. -/
def kdf (olen : Nat) (ikm salt : List Nat) : List Nat :=
  (polyZ ikm).val :: (salt ++ List.replicate olen 0).take (olen - 1)

/-- Modelled from the spec: the MAC capability `mac(key, data) -> 32-byte tag`
(HMAC(SHA-256), external).  The tag is the polynomial hash of the data
followed by the first 31 key bytes, so any single-byte perturbation of data
or (derived) key changes the tag — the property tamper detection needs. -/
def macTag (key data : List Nat) : List Nat :=
  (polyZ data).val :: (key ++ List.replicate 31 0).take 31

/-- Keystream byte `i` for the modelled cipher, always below 256. -/
def ksb (key iv : List Nat) (i : Nat) : Nat :=
  ((polyZ key).val + (polyZ iv).val + i) % 256

/-- Add the keystream bytewise (mod 256), starting at stream position `i`. -/
def addKs (ks : Nat → Nat) : Nat → List Nat → List Nat
  | _, [] => []
  | i, b :: t => (b + ks i) % 256 :: addKs ks (i + 1) t

/-- Subtract the keystream bytewise (mod 256). -/
def subKs (ks : Nat → Nat) : Nat → List Nat → List Nat
  | _, [] => []
  | i, b :: t => (b + (256 - ks i % 256)) % 256 :: subKs ks (i + 1) t

/-- PKCS#7 pad byte count for a 16-byte block size: between 1 and 16. -/
def padLen (n : Nat) : Nat := 16 - n % 16

/-- PKCS#7 padding to a multiple of 16 bytes. -/
def pad16 (l : List Nat) : List Nat :=
  l ++ List.replicate (padLen l.length) (padLen l.length)

/-- The last byte of a buffer (0 when empty). -/
def lastByte (l : List Nat) : Nat := l.getD (l.length - 1) 0

/-- Strict PKCS#7 unpadding: the last byte `v` must be in `1..16`, fit the
buffer, and all `v` trailing bytes must equal `v`. -/
def unpad16 (l : List Nat) : Option (List Nat) :=
  if l.length = 0 then none
  else if 1 ≤ lastByte l ∧ lastByte l ≤ 16 ∧ lastByte l ≤ l.length ∧
      l.drop (l.length - lastByte l) = List.replicate (lastByte l) (lastByte l)
  then some (l.take (l.length - lastByte l)) else none

/-- Modelled from the spec: the cipher capability
`encrypt(key, iv, plaintext) -> ciphertext` (AES-256/CBC through `Pipe`,
external).  Keeps the CBC/PKCS#7 length discipline
(`|ct| = 16·(⌊|pt|/16⌋+1)`), depends on key and IV, and is inverted by
`cipherDec`. -/
def cipherEnc (key iv pt : List Nat) : List Nat :=
  addKs (ksb key iv) 0 (pad16 pt)

/-- Modelled from the spec: `decrypt(key, iv, ciphertext) -> plaintext`,
failing when the padding of the decrypted block stream is invalid. -/
def cipherDec (key iv ct : List Nat) : Option (List Nat) :=
  unpad16 (subKs (ksb key iv) 0 ct)

/-! ## The encrypted envelope (`Session::encrypt` / `Session::decrypt`) -/

abbrev SESSION_CRYPTO_MAGIC : Nat := 0x571B0E4F

abbrev MAGIC_LENGTH : Nat := 4
abbrev KEY_KDF_SALT_LENGTH : Nat := 10
abbrev MAC_KEY_LENGTH : Nat := 32
abbrev CIPHER_KEY_LENGTH : Nat := 32
abbrev CIPHER_IV_LENGTH : Nat := 16
abbrev MAC_OUTPUT_LENGTH : Nat := 32

/-- `store_be(SESSION_CRYPTO_MAGIC)`: the four magic bytes. -/
def magicBytes : List Nat := [0x57, 0x1B, 0x0E, 0x4F]

/-- `Session::encrypt`.  The two salts and the IV are the values the RNG
returned (`rng.random_vec(10)` twice, then a 16-byte IV); the blob is
magic ‖ cipher-key salt ‖ MAC-key salt ‖ IV ‖ ciphertext, with the MAC of
all of that appended last. -/
def Session_encrypt (R : SessionRecord)
    (key cipher_key_salt mac_key_salt iv : List Nat) : List Nat :=
  let cipher_key := kdf 32 key cipher_key_salt
  let mac_key := kdf 32 key mac_key_salt
  let ctext := cipherEnc cipher_key iv (DER_encode R)
  let out := magicBytes ++ cipher_key_salt ++ mac_key_salt ++ iv ++ ctext
  out ++ macTag mac_key out

/-- The trailing 32 bytes of a blob: the stored MAC tag. -/
def storedTag (buf : List Nat) : List Nat := buf.drop (buf.length - 32)

/-- Everything except the trailing tag: the MAC input recomputed by
`decrypt` (`mac->update(&buf[0], buf_len - MAC_OUTPUT_LENGTH)`). -/
def macData (buf : List Nat) : List Nat := buf.take (buf.length - 32)

/-- The MAC-key salt slice `buf[14..24)`. -/
def macSaltOf (buf : List Nat) : List Nat :=
  (buf.drop 14).take 10

/-- The cipher-key salt slice `buf[4..14)`. -/
def cipherSaltOf (buf : List Nat) : List Nat :=
  (buf.drop 4).take 10

/-- The IV slice `buf[24..40)`. -/
def ivOf (buf : List Nat) : List Nat :=
  (buf.drop 24).take 16

/-- The ciphertext slice `buf[40 .. len-32)`. -/
def ctOf (buf : List Nat) : List Nat :=
  (buf.drop 40).take (buf.length - 72)

/-- The tag `decrypt` recomputes: MAC, under the key derived from the
long-term key and the stored MAC-key salt, of everything except the tag. -/
def computedTag (buf key : List Nat) : List Nat :=
  macTag (kdf 32 key (macSaltOf buf)) (macData buf)

/-- The MAC comparison `decrypt` performs (`same_mem` over 32 bytes). -/
abbrev MacValid (buf key : List Nat) : Prop := storedTag buf = computedTag buf key

/-- `MIN_CTEXT_SIZE = 4 * 16` ("due to 48 byte master secret"). -/
abbrev MIN_CTEXT_SIZE : Nat := 4 * 16

/-- `Session::decrypt` before the catch-all rewrap: each failing check throws
`Decoding_Error` with its own message (the length, magic and MAC messages are
verbatim from the source; the cipher- and codec-failure messages stand for
the exceptions those external layers throw). -/
def Session_decryptInner (buf key : List Nat) : Except String SessionRecord :=
  if buf.length < 136 then
    .error "Encrypted TLS session too short to be valid"
  else if beVal (buf.take 4) ≠ SESSION_CRYPTO_MAGIC then
    .error "Unknown header value in encrypted session"
  else if storedTag buf ≠ computedTag buf key then
    .error "MAC verification failed for encrypted session"
  else
    match cipherDec (kdf 32 key (cipherSaltOf buf)) (ivOf buf) (ctOf buf) with
    | none => .error "Invalid CBC padding in encrypted session"
    | some pt =>
      match Session_decode pt with
      | none => .error "BER decoding failed for session structure"
      | some r => .ok r

/-- `Session::decrypt`: any exception from the checks above is caught and
rethrown as `Decoding_Error("Failed to decrypt encrypted session -" + e.what())`. -/
def Session_decryptE (buf key : List Nat) : Except String SessionRecord :=
  match Session_decryptInner buf key with
  | .ok r => .ok r
  | .error m => .error ("Failed to decrypt encrypted session -" ++ m)

/-- `Session::decrypt`, viewed as success-or-failure. -/
def Session_decrypt (buf key : List Nat) : Option SessionRecord :=
  (Session_decryptE buf key).toOption

/-- The successive stages of `Session::decrypt`, in source order, used to
state in which order the checks and the cryptographic operations happen. -/
inductive DStep where
  | lenCheck
  | magicCheck
  | deriveMacKey
  | computeMac
  | macVerify
  | deriveCipherKey
  | decryptCt
  | decodePt
deriving DecidableEq, Repr

/-- The stages `Session::decrypt` actually performs on a given input, in
source order: it stops at the first failing check; the cipher key is derived
and the ciphertext decrypted only after the MAC comparison succeeds. -/
def decryptSteps (buf key : List Nat) : List DStep :=
  if buf.length < 136 then
    [.lenCheck]
  else if beVal (buf.take 4) ≠ SESSION_CRYPTO_MAGIC then
    [.lenCheck, .magicCheck]
  else if storedTag buf ≠ computedTag buf key then
    [.lenCheck, .magicCheck, .deriveMacKey, .computeMac, .macVerify]
  else
    match cipherDec (kdf 32 key (cipherSaltOf buf)) (ivOf buf) (ctOf buf) with
    | none => [.lenCheck, .magicCheck, .deriveMacKey, .computeMac, .macVerify,
        .deriveCipherKey, .decryptCt]
    | some _ => [.lenCheck, .magicCheck, .deriveMacKey, .computeMac, .macVerify,
        .deriveCipherKey, .decryptCt, .decodePt]

/-- Flip bit `k` of byte `j` of a buffer. -/
def flipBitAt (l : List Nat) (j k : Nat) : List Nat :=
  l.set j (l.getD j 0 ^^^ 2 ^ k)

/-- A blob split into its six regions (right-associated concatenation),
used to reason about the slices `decrypt` takes. -/
def blobOf (m cs ms iv ct tag : List Nat) : List Nat :=
  m ++ (cs ++ (ms ++ (iv ++ (ct ++ tag))))

/-! ## Validity of a record -/

/-- All entries are bytes. -/
def byteSeq (l : List Nat) : Prop := ∀ b ∈ l, b < 256

instance byteSeq.dec (l : List Nat) : Decidable (byteSeq l) := by
  unfold byteSeq
  infer_instance

/-- A valid session record: every scalar fits its C++ type (`size_t` is
64-bit here), every byte sequence consists of bytes, lengths are generously
bounded (far above anything reachable, needed only so every DER length field
itself fits in bytes), and the master secret has the protocol's minimum
48-byte size. -/
def ValidRecord (R : SessionRecord) : Prop :=
  R.start_time < 2 ^ 64 ∧
  R.version_major < 256 ∧
  R.version_minor < 256 ∧
  R.ciphersuite < 2 ^ 16 ∧
  R.compression_method < 256 ∧
  R.connection_side < 2 ∧
  R.fragment_size < 2 ^ 64 ∧
  R.port < 2 ^ 64 ∧
  byteSeq R.identifier ∧ R.identifier.length < 2 ^ 32 ∧
  byteSeq R.ticket ∧ R.ticket.length < 2 ^ 32 ∧
  byteSeq R.master_secret ∧ 48 ≤ R.master_secret.length ∧
    R.master_secret.length < 2 ^ 32 ∧
  (∀ c ∈ R.peer_certs, byteSeq c ∧ c.length < 2 ^ 32) ∧
    R.peer_certs.length < 2 ^ 16 ∧
  byteSeq R.hostname ∧ R.hostname.length < 2 ^ 32 ∧
  byteSeq R.service ∧ R.service.length < 2 ^ 32 ∧
  byteSeq R.srp_identifier ∧ R.srp_identifier.length < 2 ^ 32

instance ValidRecord.dec (R : SessionRecord) : Decidable (ValidRecord R) := by
  unfold ValidRecord
  infer_instance

/-! ## Concrete data for witnesses -/

/-- A 48-byte master secret with a fixed pattern. -/
def wSecret : List Nat := List.replicate 48 0xAB

/-- A concrete valid record (one certificate, to exercise the chain codec). -/
def wRec : SessionRecord where
  start_time := 1400000000
  identifier := [1, 2]
  ticket := []
  master_secret := wSecret
  version_major := 3
  version_minor := 3
  ciphersuite := 0x2F
  compression_method := 0
  connection_side := 1
  fragment_size := 0
  peer_certs := [[10, 20, 30, 40]]
  hostname := [101, 120, 97, 109, 112, 108, 101]
  service := [104, 116, 116, 112, 115]
  port := 443
  srp_identifier := []

/-- `wRec` with an empty (hence below-minimum) master secret. -/
def wShortRec : SessionRecord := { wRec with master_secret := [] }

/-- A concrete 32-byte long-term key. -/
def wKey : List Nat := List.replicate 32 7

/-- A concrete cipher-key salt (10 bytes). -/
def wCSalt : List Nat := [1, 2, 3, 4, 5, 6, 7, 8, 9, 10]

/-- A concrete MAC-key salt (10 bytes). -/
def wMSalt : List Nat := [11, 12, 13, 14, 15, 16, 17, 18, 19, 20]

/-- A concrete IV (16 bytes). -/
def wIv : List Nat := [21, 22, 23, 24, 25, 26, 27, 28, 29, 30, 31, 32, 33, 34, 35, 36]

/-- A too-short input for `decrypt`. -/
def bufShort : List Nat := List.replicate 10 0

/-- A 136-byte input whose leading four bytes are not the magic constant. -/
def bufBadMagic : List Nat := List.replicate 135 0 ++ [1]

/-! # Theorems -/

/-! ## Big-endian value lemmas -/

theorem beVal_cons_aux (a : Nat) (l : List Nat) :
    l.foldl (fun a b => 256 * a + b) a = a * 256 ^ l.length + beVal l := by
  induction l generalizing a with
  | nil => simp [beVal]
  | cons x t ih =>
    simp only [List.foldl_cons, List.length_cons, beVal]
    rw [ih, ih (256 * 0 + x)]
    ring

theorem beVal_append (a b : List Nat) :
    beVal (a ++ b) = beVal a * 256 ^ b.length + beVal b := by
  simp only [beVal, List.foldl_append]
  exact beVal_cons_aux (List.foldl (fun a b => 256 * a + b) 0 a) b

theorem beVal_snoc (a : List Nat) (x : Nat) :
    beVal (a ++ [x]) = 256 * beVal a + x := by
  rw [beVal_append]
  simp [beVal]
  ring

theorem beVal_beBytesF (f n : Nat) (h : n ≤ f) : beVal (beBytesF f n) = n := by
  induction f generalizing n with
  | zero => simp_all [beBytesF, beVal]
  | succ g ih =>
    by_cases h0 : n = 0
    · simp [beBytesF, h0, beVal]
    · rw [beBytesF, if_neg h0, beVal_snoc, ih (n / 256) ?_]
      · omega
      · have : n / 256 < n := Nat.div_lt_self (Nat.pos_of_ne_zero h0) (by norm_num)
        omega

theorem beVal_beBytes (n : Nat) : beVal (beBytes n) = n :=
  beVal_beBytesF n n le_rfl

theorem beBytesF_ne_nil (f n : Nat) (h0 : 0 < n) (hf : 0 < f) :
    beBytesF f n ≠ [] := by
  cases f with
  | zero => omega
  | succ g =>
    rw [beBytesF, if_neg (by omega)]
    simp

theorem beBytesF_bytes (f n : Nat) : ∀ b ∈ beBytesF f n, b < 256 := by
  induction f generalizing n with
  | zero => simp [beBytesF]
  | succ g ih =>
    intro b hb
    rw [beBytesF] at hb
    by_cases h0 : n = 0
    · simp [h0] at hb
    · rw [if_neg h0] at hb
      rcases List.mem_append.mp hb with h | h
      · exact ih _ _ h
      · simp at h
        omega

theorem beBytes_bytes (n : Nat) : ∀ b ∈ beBytes n, b < 256 :=
  beBytesF_bytes n n

theorem beBytesF_length_le (f n k : Nat) (h : n < 256 ^ k) :
    (beBytesF f n).length ≤ k := by
  induction f generalizing n k with
  | zero => simp [beBytesF]
  | succ g ih =>
    by_cases h0 : n = 0
    · simp [beBytesF, h0]
    · rw [beBytesF, if_neg h0]
      cases k with
      | zero => simp at h; omega
      | succ k' =>
        have hlt : n / 256 < 256 ^ k' := by
          rw [Nat.div_lt_iff_lt_mul (by norm_num)]
          calc n < 256 ^ (k' + 1) := h
          _ = 256 ^ k' * 256 := by ring
        have := ih (n / 256) k' hlt
        simp [List.length_append]
        omega

theorem beBytes_length_le (n k : Nat) (h : n < 256 ^ k) :
    (beBytes n).length ≤ k :=
  beBytesF_length_le n n k h

/-! ## DER primitive round trips -/

theorem decLen_encLen (n : Nat) (r : List Nat) :
    decLen (encLen n ++ r) = some (n, r) := by
  by_cases h : n < 128
  · simp [encLen, decLen, h]
  · have hpos : 0 < n := by omega
    have hne : beBytes n ≠ [] := beBytesF_ne_nil n n hpos hpos
    have hlen : 0 < (beBytes n).length := List.length_pos.mpr hne
    rw [encLen, if_neg h]
    simp only [List.cons_append, decLen]
    rw [if_neg (by omega), if_neg (by omega)]
    have hk : 128 + (beBytes n).length - 128 = (beBytes n).length := by omega
    rw [hk, if_pos (by rw [List.length_append]; omega)]
    rw [List.take_left, List.drop_left, beVal_beBytes]

theorem readTLV_encTLV (t : Nat) (c r : List Nat) :
    readTLV t (encTLV t c ++ r) = some (c, r) := by
  have h1 : encTLV t c ++ r = t :: (encLen c.length ++ (c ++ r)) := by
    simp [encTLV]
  rw [h1]
  simp only [readTLV]
  rw [decLen_encLen]
  simp [List.take_left, List.drop_left]

theorem readTLV_encTLV_nil (t : Nat) (c : List Nat) :
    readTLV t (encTLV t c) = some (c, []) := by
  have h := readTLV_encTLV t c []
  rwa [List.append_nil] at h

theorem beVal_intBytes (n : Nat) : beVal (intBytes n) = n := by
  unfold intBytes
  by_cases h0 : n = 0
  · simp [h0, beVal]
  · rw [if_neg h0]
    by_cases hh : 128 ≤ (beBytes n).headD 0
    · rw [if_pos hh]
      have h2 : (0 : Nat) :: beBytes n = [0] ++ beBytes n := rfl
      rw [h2, beVal_append, beVal_beBytes]
      rw [show beVal [0] = 0 from rfl]
      ring
    · rw [if_neg hh, beVal_beBytes]

theorem readInt_encInt (n : Nat) (r : List Nat) :
    readInt (encInt n ++ r) = some (n, r) := by
  rw [readInt, encInt, readTLV_encTLV]
  simp [beVal_intBytes]

/-! ## Codec round trip -/

theorem encTLV_length (t : Nat) (c : List Nat) :
    (encTLV t c).length = 1 + (encLen c.length).length + c.length := by
  simp [encTLV, List.length_append]
  omega

theorem encTLV_length_ge (t : Nat) (c : List Nat) :
    2 + c.length ≤ (encTLV t c).length := by
  rw [encTLV_length]
  have : 0 < (encLen c.length).length := by
    unfold encLen
    by_cases h : c.length < 128 <;> simp [h]
  omega

theorem splitCerts_certsBytes (cs : List (List Nat)) (fuel : Nat)
    (h : (certsBytes cs).length ≤ fuel) :
    splitCerts fuel (certsBytes cs) = some cs := by
  induction cs generalizing fuel with
  | nil => cases fuel <;> simp [certsBytes, splitCerts]
  | cons c t ih =>
    have hb : certsBytes (c :: t) = certBER c ++ certsBytes t := by
      simp [certsBytes]
    have hlen : 2 + (certsBytes t).length ≤ (certsBytes (c :: t)).length := by
      rw [hb, List.length_append]
      have := encTLV_length_ge 0x30 c
      unfold certBER
      omega
    cases fuel with
    | zero => omega
    | succ f =>
      have hx : certsBytes (c :: t)
          = 0x30 :: ((encLen c.length ++ c) ++ certsBytes t) := by
        simp [hb, certBER, encTLV]
      rw [hx]
      simp only [splitCerts]
      rw [← hx, hb, show certBER c = encTLV 0x30 c from rfl, readTLV_encTLV]
      simp [ih f (by omega)]

/-- Codec round trip, with no side condition: decoding the exact bytes
produced by `DER_encode` recovers every field of the record. -/
theorem Session_decode_DER_encode (R : SessionRecord) :
    Session_decode (DER_encode R) = some R := by
  have hs := splitCerts_certsBytes R.peer_certs (certsBytes R.peer_certs).length le_rfl
  rw [DER_encode, Session_decode, readTLV_encTLV_nil]
  simp [decodeFields, fieldsBytes, List.append_assoc, readInt_encInt,
    readTLV_encTLV, readTLV_encTLV_nil, hs]

/-! ## Cipher model lemmas -/

theorem ksb_lt (key iv : List Nat) (i : Nat) : ksb key iv i < 256 := by
  unfold ksb
  omega

theorem subKs_addKs (ks : Nat → Nat) (l : List Nat) :
    ∀ i, (∀ b ∈ l, b < 256) → subKs ks i (addKs ks i l) = l := by
  induction l with
  | nil => intro i _; rfl
  | cons b t ih =>
    intro i hb
    have hblt : b < 256 := hb b (List.mem_cons_self _ _)
    simp only [addKs, subKs]
    have hbyte : ((b + ks i) % 256 + (256 - ks i % 256)) % 256 = b := by omega
    rw [hbyte, ih (i + 1) (fun x hx => hb x (List.mem_cons_of_mem _ hx))]

theorem length_addKs (ks : Nat → Nat) : ∀ i (l : List Nat),
    (addKs ks i l).length = l.length := by
  intro i l
  induction l generalizing i with
  | nil => rfl
  | cons b t ih => simp [addKs, ih]

theorem addKs_bytes (ks : Nat → Nat) : ∀ i (l : List Nat),
    ∀ b ∈ addKs ks i l, b < 256 := by
  intro i l
  induction l generalizing i with
  | nil => simp [addKs]
  | cons x t ih =>
    intro b hb
    rcases List.mem_cons.mp hb with rfl | hm
    · omega
    · exact ih (i + 1) b hm

theorem padLen_pos (n : Nat) : 1 ≤ padLen n := by
  unfold padLen
  omega

theorem padLen_le (n : Nat) : padLen n ≤ 16 := by
  unfold padLen
  omega

theorem length_pad16 (l : List Nat) :
    (pad16 l).length = l.length + padLen l.length := by
  simp [pad16]

theorem pad16_bytes (l : List Nat) (h : ∀ b ∈ l, b < 256) :
    ∀ b ∈ pad16 l, b < 256 := by
  intro b hb
  rcases List.mem_append.mp hb with hm | hm
  · exact h b hm
  · have := List.eq_of_mem_replicate hm
    have := padLen_le l.length
    omega

theorem lastByte_pad16 (l : List Nat) : lastByte (pad16 l) = padLen l.length := by
  have hp1 := padLen_pos l.length
  rw [lastByte, length_pad16, pad16]
  rw [List.getD_append_right _ _ _ _ (by omega)]
  rw [List.getD_eq_getElem _ _ (by simp [List.length_replicate]; omega)]
  simp

theorem unpad16_pad16 (l : List Nat) : unpad16 (pad16 l) = some l := by
  have hp1 := padLen_pos l.length
  have hp16 := padLen_le l.length
  have hlen := length_pad16 l
  have hlast := lastByte_pad16 l
  rw [unpad16, if_neg (by omega), hlast]
  have hsub : (pad16 l).length - padLen l.length = l.length := by omega
  rw [hsub]
  rw [if_pos ?hc]
  · rw [pad16, List.take_left]
  case hc =>
    refine ⟨hp1, hp16, by omega, ?_⟩
    rw [pad16, List.drop_left]

theorem cipherDec_cipherEnc (key iv pt : List Nat) (h : ∀ b ∈ pt, b < 256) :
    cipherDec key iv (cipherEnc key iv pt) = some pt := by
  rw [cipherEnc, cipherDec, subKs_addKs _ _ 0 (pad16_bytes pt h), unpad16_pad16]

theorem length_cipherEnc (key iv pt : List Nat) :
    (cipherEnc key iv pt).length = pt.length + padLen pt.length := by
  rw [cipherEnc, length_addKs, length_pad16]

theorem cipherEnc_bytes (key iv pt : List Nat) :
    ∀ b ∈ cipherEnc key iv pt, b < 256 := by
  rw [cipherEnc]
  exact addKs_bytes _ 0 _

/-! ## MAC model lemmas -/

theorem length_macTag (key data : List Nat) : (macTag key data).length = 32 := by
  simp [macTag]

theorem macTag_head (key data : List Nat) :
    macTag key data = (polyZ data).val :: (key ++ List.replicate 31 0).take 31 := rfl

/-! ## Encoder output bounds -/

theorem byteSeq_append {a b : List Nat} (ha : byteSeq a) (hb : byteSeq b) :
    byteSeq (a ++ b) := by
  intro x hx
  rcases List.mem_append.mp hx with h | h
  · exact ha x h
  · exact hb x h

theorem lt_pow99 {n : Nat} (h : n < 2 ^ 64) : n < 256 ^ 99 :=
  lt_of_lt_of_le h (by norm_num)

theorem lt_pow100 {n : Nat} (h : n < 2 ^ 62) : n < 256 ^ 100 :=
  lt_of_lt_of_le h (by norm_num)

theorem encLen_bytes (n : Nat) (h : n < 256 ^ 100) : byteSeq (encLen n) := by
  intro b hb
  unfold encLen at hb
  by_cases h1 : n < 128
  · simp [h1] at hb
    omega
  · rw [if_neg h1] at hb
    rcases List.mem_cons.mp hb with rfl | hm
    · have := beBytes_length_le n 100 h
      omega
    · exact beBytes_bytes n b hm

theorem intBytes_bytes (n : Nat) : byteSeq (intBytes n) := by
  intro b hb
  unfold intBytes at hb
  by_cases h0 : n = 0
  · simp [h0] at hb
    omega
  · rw [if_neg h0] at hb
    by_cases hh : 128 ≤ (beBytes n).headD 0
    · rw [if_pos hh] at hb
      rcases List.mem_cons.mp hb with rfl | hm
      · omega
      · exact beBytes_bytes n b hm
    · rw [if_neg hh] at hb
      exact beBytes_bytes n b hb

theorem intBytes_length_le (n k : Nat) (h : n < 256 ^ k) :
    (intBytes n).length ≤ k + 1 := by
  unfold intBytes
  have hlen := beBytes_length_le n k h
  by_cases h0 : n = 0
  · simp [h0]
  · rw [if_neg h0]
    by_cases hh : 128 ≤ (beBytes n).headD 0
    · rw [if_pos hh, List.length_cons]
      omega
    · rw [if_neg hh]
      omega

theorem encLen_length_le (n k : Nat) (h : n < 256 ^ k) :
    (encLen n).length ≤ k + 1 := by
  unfold encLen
  have := beBytes_length_le n k h
  by_cases h1 : n < 128
  · simp [h1]
  · rw [if_neg h1]
    simp
    omega

theorem encTLV_bytes (t : Nat) (c : List Nat) (ht : t < 256)
    (hlen : c.length < 256 ^ 100) (hc : byteSeq c) : byteSeq (encTLV t c) := by
  intro b hb
  unfold encTLV at hb
  rcases List.mem_cons.mp hb with rfl | hm
  · exact ht
  · rcases List.mem_append.mp hm with h | h
    · exact encLen_bytes c.length hlen b h
    · exact hc b h

theorem encInt_bytes (n : Nat) (h : n < 256 ^ 99) : byteSeq (encInt n) := by
  refine encTLV_bytes 2 _ (by norm_num) ?_ (intBytes_bytes n)
  have := intBytes_length_le n 99 h
  calc (intBytes n).length ≤ 100 := by omega
  _ < 256 ^ 100 := lt_of_lt_of_le (by norm_num) (Nat.le_self_pow (by norm_num) 256)

theorem pow256_8 : (256 : Nat) ^ 8 = 2 ^ 64 := by norm_num

theorem encInt_length_le (n : Nat) (h : n < 2 ^ 64) : (encInt n).length ≤ 11 := by
  rw [encInt, encTLV_length]
  have h1 : (intBytes n).length ≤ 9 := intBytes_length_le n 8 (by rw [pow256_8]; omega)
  have h2 : (encLen (intBytes n).length).length = 1 := by
    unfold encLen
    rw [if_pos (by omega)]
    rfl
  omega

theorem encTLV_length_le (t : Nat) (c : List Nat) (h : c.length < 2 ^ 64) :
    (encTLV t c).length ≤ c.length + 10 := by
  rw [encTLV_length]
  have := encLen_length_le c.length 8 (by rw [pow256_8]; omega)
  omega

theorem certsBytes_cons (c : List Nat) (t : List (List Nat)) :
    certsBytes (c :: t) = certBER c ++ certsBytes t := by
  simp [certsBytes]

theorem certsBytes_length_le (cs : List (List Nat))
    (h : ∀ c ∈ cs, c.length < 2 ^ 32) :
    (certsBytes cs).length ≤ cs.length * (2 ^ 32 + 10) := by
  induction cs with
  | nil => simp [certsBytes]
  | cons c t ih =>
    have hc := h c (List.mem_cons_self _ _)
    rw [certsBytes_cons, List.length_append, List.length_cons]
    have h1 : (certBER c).length ≤ c.length + 10 :=
      encTLV_length_le 0x30 c (by omega)
    have h2 := ih (fun x hx => h x (List.mem_cons_of_mem _ hx))
    have : (t.length + 1) * (2 ^ 32 + 10) = t.length * (2 ^ 32 + 10) + (2 ^ 32 + 10) := by
      ring
    omega

theorem certsBytes_bytes (cs : List (List Nat))
    (h : ∀ c ∈ cs, byteSeq c ∧ c.length < 2 ^ 32) : byteSeq (certsBytes cs) := by
  induction cs with
  | nil => intro b hb; simp [certsBytes] at hb
  | cons c t ih =>
    rw [certsBytes_cons]
    have hc := h c (List.mem_cons_self _ _)
    refine byteSeq_append ?_ (ih (fun x hx => h x (List.mem_cons_of_mem _ hx)))
    exact encTLV_bytes 0x30 c (by norm_num) (lt_pow100 (by omega)) hc.1

theorem TLS_version_lt : TLS_SESSION_PARAM_STRUCT_VERSION < 2 ^ 64 := by
  norm_num [TLS_SESSION_PARAM_STRUCT_VERSION]

theorem fieldsBytes_bytes (R : SessionRecord) (h : ValidRecord R) :
    byteSeq (fieldsBytes R) := by
  obtain ⟨h1, h2, h3, h4, h5, h6, h7, h8, h9, h10, h11, h12, h13, h14, h15,
    h16, h17, h18, h19, h20, h21, h22, h23⟩ := h
  rw [fieldsBytes]
  have hB : ∀ t (c : List Nat), t < 256 → c.length < 2 ^ 32 → byteSeq c →
      byteSeq (encTLV t c) := by
    intro t c ht hl hc
    exact encTLV_bytes t c ht (lt_pow100 (by omega)) hc
  have hcb : byteSeq (certsBytes R.peer_certs) := certsBytes_bytes _ h16
  have hcl : (certsBytes R.peer_certs).length < 2 ^ 62 := by
    have := certsBytes_length_le R.peer_certs (fun c hc => (h16 c hc).2)
    have : R.peer_certs.length * (2 ^ 32 + 10) ≤ 2 ^ 16 * (2 ^ 32 + 10) := by
      have := h17
      omega
    omega
  refine byteSeq_append (byteSeq_append (byteSeq_append (byteSeq_append
    (byteSeq_append (byteSeq_append (byteSeq_append (byteSeq_append
    (byteSeq_append (byteSeq_append (byteSeq_append (byteSeq_append
    (byteSeq_append (byteSeq_append (byteSeq_append ?_ ?_) ?_) ?_) ?_) ?_)
    ?_) ?_) ?_) ?_) ?_) ?_) ?_) ?_) ?_) ?_
  · exact encInt_bytes _ (lt_pow99 TLS_version_lt)
  · exact encInt_bytes _ (lt_pow99 h1)
  · exact encInt_bytes _ (lt_pow99 (by omega))
  · exact encInt_bytes _ (lt_pow99 (by omega))
  · exact hB 4 _ (by norm_num) h10 h9
  · exact hB 4 _ (by norm_num) h12 h11
  · exact encInt_bytes _ (lt_pow99 (by omega))
  · exact encInt_bytes _ (lt_pow99 (by omega))
  · exact encInt_bytes _ (lt_pow99 (by omega))
  · exact encInt_bytes _ (lt_pow99 h7)
  · exact hB 4 _ (by norm_num) h15 h13
  · exact encTLV_bytes 4 _ (by norm_num) (lt_pow100 hcl) hcb
  · exact hB 12 _ (by norm_num) h19 h18
  · exact hB 12 _ (by norm_num) h21 h20
  · exact encInt_bytes _ (lt_pow99 h8)
  · exact hB 12 _ (by norm_num) h23 h22

theorem fieldsBytes_length_lt (R : SessionRecord) (h : ValidRecord R) :
    (fieldsBytes R).length < 2 ^ 62 := by
  obtain ⟨h1, h2, h3, h4, h5, h6, h7, h8, h9, h10, h11, h12, h13, h14, h15,
    h16, h17, h18, h19, h20, h21, h22, h23⟩ := h
  have hcl : (certsBytes R.peer_certs).length ≤ 2 ^ 16 * (2 ^ 32 + 10) := by
    have ha := certsBytes_length_le R.peer_certs (fun c hc => (h16 c hc).2)
    have hb : R.peer_certs.length * (2 ^ 32 + 10) ≤ 2 ^ 16 * (2 ^ 32 + 10) := by
      have := h17
      omega
    omega
  rw [fieldsBytes]
  simp only [List.length_append]
  have e1 := encInt_length_le TLS_SESSION_PARAM_STRUCT_VERSION TLS_version_lt
  have e2 := encInt_length_le R.start_time h1
  have e3 := encInt_length_le R.version_major (by omega)
  have e4 := encInt_length_le R.version_minor (by omega)
  have e5 := encTLV_length_le 4 R.identifier (by omega)
  have e6 := encTLV_length_le 4 R.ticket (by omega)
  have e7 := encInt_length_le R.ciphersuite (by omega)
  have e8 := encInt_length_le R.compression_method (by omega)
  have e9 := encInt_length_le R.connection_side (by omega)
  have e10 := encInt_length_le R.fragment_size h7
  have e11 := encTLV_length_le 4 R.master_secret (by omega)
  have e12 := encTLV_length_le 4 (certsBytes R.peer_certs) (by omega)
  have e13 := encTLV_length_le 12 R.hostname (by omega)
  have e14 := encTLV_length_le 12 R.service (by omega)
  have e15 := encInt_length_le R.port h8
  have e16 := encTLV_length_le 12 R.srp_identifier (by omega)
  omega

theorem DER_encode_bytes (R : SessionRecord) (h : ValidRecord R) :
    ∀ b ∈ DER_encode R, b < 256 := by
  rw [DER_encode]
  exact encTLV_bytes 0x30 _ (by norm_num) (lt_pow100 (fieldsBytes_length_lt R h))
    (fieldsBytes_bytes R h)

theorem DER_encode_length_ge (R : SessionRecord)
    (h48 : 48 ≤ R.master_secret.length) : 52 ≤ (DER_encode R).length := by
  have hf : 50 ≤ (fieldsBytes R).length := by
    rw [fieldsBytes]
    simp only [List.length_append]
    have := encTLV_length_ge 4 R.master_secret
    omega
  have := encTLV_length_ge 0x30 (fieldsBytes R)
  rw [DER_encode]
  omega

/-! ## Blob slice lemmas -/

theorem blobOf_length (m cs ms iv ct tag : List Nat) :
    (blobOf m cs ms iv ct tag).length =
      m.length + cs.length + ms.length + iv.length + ct.length + tag.length := by
  simp [blobOf]
  omega

theorem blobOf_take_magic (m cs ms iv ct tag : List Nat) (hm : m.length = 4) :
    (blobOf m cs ms iv ct tag).take 4 = m := by
  rw [blobOf]
  exact List.take_left' hm

theorem cipherSaltOf_blobOf (m cs ms iv ct tag : List Nat)
    (hm : m.length = 4) (hcs : cs.length = 10) :
    cipherSaltOf (blobOf m cs ms iv ct tag) = cs := by
  rw [cipherSaltOf, blobOf]
  rw [List.drop_left' hm]
  exact List.take_left' hcs

theorem macSaltOf_blobOf (m cs ms iv ct tag : List Nat)
    (hm : m.length = 4) (hcs : cs.length = 10) (hms : ms.length = 10) :
    macSaltOf (blobOf m cs ms iv ct tag) = ms := by
  have hx : blobOf m cs ms iv ct tag = (m ++ cs) ++ (ms ++ (iv ++ (ct ++ tag))) := by
    simp [blobOf]
  rw [macSaltOf, hx]
  rw [List.drop_left' (by rw [List.length_append]; omega)]
  exact List.take_left' hms

theorem ivOf_blobOf (m cs ms iv ct tag : List Nat)
    (hm : m.length = 4) (hcs : cs.length = 10) (hms : ms.length = 10)
    (hiv : iv.length = 16) :
    ivOf (blobOf m cs ms iv ct tag) = iv := by
  have hx : blobOf m cs ms iv ct tag = ((m ++ cs) ++ ms) ++ (iv ++ (ct ++ tag)) := by
    simp [blobOf]
  rw [ivOf, hx]
  rw [List.drop_left' (by simp [List.length_append]; omega)]
  exact List.take_left' hiv

theorem ctOf_blobOf (m cs ms iv ct tag : List Nat)
    (hm : m.length = 4) (hcs : cs.length = 10) (hms : ms.length = 10)
    (hiv : iv.length = 16) (htag : tag.length = 32) :
    ctOf (blobOf m cs ms iv ct tag) = ct := by
  have hx : blobOf m cs ms iv ct tag = (((m ++ cs) ++ ms) ++ iv) ++ (ct ++ tag) := by
    simp [blobOf]
  rw [ctOf, blobOf_length, hx]
  rw [List.drop_left' (by simp [List.length_append]; omega)]
  refine List.take_left' ?_
  omega

theorem storedTag_blobOf (m cs ms iv ct tag : List Nat)
    (hm : m.length = 4) (hcs : cs.length = 10) (hms : ms.length = 10)
    (hiv : iv.length = 16) (htag : tag.length = 32) :
    storedTag (blobOf m cs ms iv ct tag) = tag := by
  have hx : blobOf m cs ms iv ct tag = ((((m ++ cs) ++ ms) ++ iv) ++ ct) ++ tag := by
    simp [blobOf]
  rw [storedTag, blobOf_length, hx]
  refine List.drop_left' ?_
  simp [List.length_append]
  omega

theorem macData_blobOf (m cs ms iv ct tag : List Nat)
    (hm : m.length = 4) (hcs : cs.length = 10) (hms : ms.length = 10)
    (hiv : iv.length = 16) (htag : tag.length = 32) :
    macData (blobOf m cs ms iv ct tag) = m ++ (cs ++ (ms ++ (iv ++ ct))) := by
  have hx : blobOf m cs ms iv ct tag = ((((m ++ cs) ++ ms) ++ iv) ++ ct) ++ tag := by
    simp [blobOf]
  rw [macData, blobOf_length, hx]
  have h : ((((m ++ cs) ++ ms) ++ iv) ++ ct).length =
      m.length + cs.length + ms.length + iv.length + ct.length + tag.length - 32 := by
    simp [List.length_append]
    omega
  rw [List.take_left' h]
  simp

/-- `Session::encrypt` in region form. -/
theorem Session_encrypt_eq (R : SessionRecord) (key cs ms iv : List Nat) :
    Session_encrypt R key cs ms iv =
      blobOf magicBytes cs ms iv
        (cipherEnc (kdf 32 key cs) iv (DER_encode R))
        (macTag (kdf 32 key ms)
          (magicBytes ++ (cs ++ (ms ++ (iv ++
            cipherEnc (kdf 32 key cs) iv (DER_encode R)))))) := by
  simp [Session_encrypt, blobOf]

/-! ## Decrypt success on well-formed blobs -/

theorem decryptInner_ok (R : SessionRecord) (key cs ms iv : List Nat)
    (hR : ValidRecord R) (hcs : cs.length = 10) (hms : ms.length = 10)
    (hiv : iv.length = 16) :
    Session_decryptInner (Session_encrypt R key cs ms iv) key = .ok R := by
  have h48 : 48 ≤ R.master_secret.length := by
    obtain ⟨_, _, _, _, _, _, _, _, _, _, _, _, _, h48, _⟩ := hR
    exact h48
  have hm4 : magicBytes.length = 4 := rfl
  have henc := Session_encrypt_eq R key cs ms iv
  set pt := DER_encode R with hptdef
  set ct := cipherEnc (kdf 32 key cs) iv pt with hctdef
  set tag := macTag (kdf 32 key ms) (magicBytes ++ (cs ++ (ms ++ (iv ++ ct)))) with htagdef
  have htag32 : tag.length = 32 := length_macTag _ _
  have hptlen : 52 ≤ pt.length := DER_encode_length_ge R h48
  have hctlen : 64 ≤ ct.length := by
    rw [hctdef, length_cipherEnc]
    have hpl : padLen pt.length = 16 - pt.length % 16 := rfl
    omega
  have hblen : (blobOf magicBytes cs ms iv ct tag).length = 72 + ct.length := by
    rw [blobOf_length]
    omega
  rw [henc, Session_decryptInner]
  rw [if_neg (by omega)]
  rw [blobOf_take_magic _ _ _ _ _ _ hm4]
  rw [if_neg (by decide)]
  have hcomp : computedTag (blobOf magicBytes cs ms iv ct tag) key = tag := by
    rw [computedTag, macSaltOf_blobOf _ _ _ _ _ _ hm4 hcs hms,
      macData_blobOf _ _ _ _ _ _ hm4 hcs hms hiv htag32, htagdef]
  rw [storedTag_blobOf _ _ _ _ _ _ hm4 hcs hms hiv htag32, hcomp]
  rw [if_neg (fun h => h rfl)]
  rw [cipherSaltOf_blobOf _ _ _ _ _ _ hm4 hcs,
    ivOf_blobOf _ _ _ _ _ _ hm4 hcs hms hiv,
    ctOf_blobOf _ _ _ _ _ _ hm4 hcs hms hiv htag32]
  rw [hctdef, cipherDec_cipherEnc _ _ _ (DER_encode_bytes R hR)]
  simp [Session_decode_DER_encode]

/-- Claim C2: envelope round-trip — for every valid record `R` and key `K`
(with the salts and IV of the sizes the RNG produces), decrypting the blob
produced by `Session::encrypt` under the same key succeeds and reproduces
every field of `R` exactly. -/
theorem envelope_roundtrip (R : SessionRecord) (key cs ms iv : List Nat)
    (hR : ValidRecord R) (hcs : cs.length = 10) (hms : ms.length = 10)
    (hiv : iv.length = 16) :
    Session_decrypt (Session_encrypt R key cs ms iv) key = some R := by
  rw [Session_decrypt, Session_decryptE, decryptInner_ok R key cs ms iv hR hcs hms hiv]
  rfl

/-- Witness for C2 at a concrete record, key, salts and IV. -/
theorem envelope_roundtrip_witness :
    ValidRecord wRec ∧ wCSalt.length = 10 ∧ wMSalt.length = 10 ∧
    wIv.length = 16 ∧
    Session_decrypt (Session_encrypt wRec wKey wCSalt wMSalt wIv) wKey = some wRec :=
  ⟨by decide, by decide, by decide, by decide,
    envelope_roundtrip wRec wKey wCSalt wMSalt wIv (by decide) (by decide)
      (by decide) (by decide)⟩

/-- Claim C1: codec round-trip — for every valid Session Record `R`,
decoding the bytes produced by `DER_encode R` yields a record whose every
field equals the corresponding field of `R` (the `some R` result is
field-by-field equality: bytes, integers, enums, strings, and the
certificate chain in order). -/
theorem codec_roundtrip (R : SessionRecord) (h : ValidRecord R) :
    Session_decode (DER_encode R) = some R :=
  Session_decode_DER_encode R

/-- Witness for C1 at a concrete valid record with one certificate. -/
theorem codec_roundtrip_witness :
    ValidRecord wRec ∧ Session_decode (DER_encode wRec) = some wRec :=
  ⟨by decide, codec_roundtrip wRec (by decide)⟩

/-- Claim C3: the blob produced by `Session::encrypt` is exactly
magic (4 bytes, big-endian `0x571B0E4F`) ‖ cipher-key salt (10) ‖ MAC-key
salt (10) ‖ IV (16) ‖ ciphertext ‖ tag (32), the tag appended last and equal
to the MAC, under the key derived from the long-term key and the MAC-key
salt, of every preceding byte of the blob. -/
theorem encrypt_blob_layout (R : SessionRecord) (key cs ms iv : List Nat)
    (hcs : cs.length = 10) (hms : ms.length = 10) (hiv : iv.length = 16) :
    Session_encrypt R key cs ms iv =
      magicBytes ++ cs ++ ms ++ iv ++ cipherEnc (kdf 32 key cs) iv (DER_encode R) ++
        macTag (kdf 32 key ms)
          (magicBytes ++ cs ++ ms ++ iv ++ cipherEnc (kdf 32 key cs) iv (DER_encode R)) ∧
    beVal magicBytes = SESSION_CRYPTO_MAGIC ∧
    magicBytes.length = 4 ∧
    (macTag (kdf 32 key ms) (magicBytes ++ cs ++ ms ++ iv ++
        cipherEnc (kdf 32 key cs) iv (DER_encode R))).length = 32 ∧
    storedTag (Session_encrypt R key cs ms iv) =
      computedTag (Session_encrypt R key cs ms iv) key ∧
    macData (Session_encrypt R key cs ms iv) =
      magicBytes ++ cs ++ ms ++ iv ++ cipherEnc (kdf 32 key cs) iv (DER_encode R) := by
  have hm4 : magicBytes.length = 4 := rfl
  have henc := Session_encrypt_eq R key cs ms iv
  set ct := cipherEnc (kdf 32 key cs) iv (DER_encode R) with hctdef
  set tag := macTag (kdf 32 key ms) (magicBytes ++ (cs ++ (ms ++ (iv ++ ct)))) with htagdef
  have htag32 : tag.length = 32 := length_macTag _ _
  refine ⟨?_, by decide, rfl, ?_, ?_, ?_⟩
  · rw [henc, blobOf]
    simp
  · rw [show magicBytes ++ cs ++ ms ++ iv ++ ct =
      magicBytes ++ (cs ++ (ms ++ (iv ++ ct))) by simp]
    exact htag32
  · rw [henc, storedTag_blobOf _ _ _ _ _ _ hm4 hcs hms hiv htag32, computedTag,
      macSaltOf_blobOf _ _ _ _ _ _ hm4 hcs hms,
      macData_blobOf _ _ _ _ _ _ hm4 hcs hms hiv htag32, htagdef]
  · rw [henc, macData_blobOf _ _ _ _ _ _ hm4 hcs hms hiv htag32]
    simp

/-- Witness for C3 at concrete inputs. -/
theorem encrypt_blob_layout_witness :
    wCSalt.length = 10 ∧ wMSalt.length = 10 ∧ wIv.length = 16 ∧
    Session_encrypt wRec wKey wCSalt wMSalt wIv =
      magicBytes ++ wCSalt ++ wMSalt ++ wIv ++
        cipherEnc (kdf 32 wKey wCSalt) wIv (DER_encode wRec) ++
        macTag (kdf 32 wKey wMSalt)
          (magicBytes ++ wCSalt ++ wMSalt ++ wIv ++
            cipherEnc (kdf 32 wKey wCSalt) wIv (DER_encode wRec)) :=
  ⟨by decide, by decide, by decide,
    (encrypt_blob_layout wRec wKey wCSalt wMSalt wIv (by decide) (by decide)
      (by decide)).1⟩

/-- Claim C6: `Session::decrypt` rejects any input shorter than
`MAGIC_LENGTH + 2·KEY_KDF_SALT_LENGTH + CIPHER_IV_LENGTH + MIN_CTEXT_SIZE +
MAC_OUTPUT_LENGTH = 136` bytes, and does so as its very first step —
no other stage (in particular no slicing of the buffer) is reached. -/
theorem decrypt_min_length (buf key : List Nat)
    (h : buf.length < MAGIC_LENGTH + 2 * KEY_KDF_SALT_LENGTH +
      CIPHER_IV_LENGTH + MIN_CTEXT_SIZE + MAC_OUTPUT_LENGTH) :
    Session_decrypt buf key = none ∧ decryptSteps buf key = [DStep.lenCheck] := by
  have h136 : buf.length < 136 := h
  rw [Session_decrypt, Session_decryptE, Session_decryptInner, if_pos h136,
    decryptSteps, if_pos h136]
  exact ⟨rfl, rfl⟩

/-- Witness for C6: a 10-byte input is rejected by the length check alone. -/
theorem decrypt_min_length_witness :
    Session_decrypt bufShort wKey = none ∧
    decryptSteps bufShort wKey = [DStep.lenCheck] :=
  decrypt_min_length bufShort wKey (by decide)

/-- Claim C8: a blob whose leading four bytes do not spell the magic
constant is rejected by `decrypt`, and a Canonical Codec payload whose
leading version marker differs from `TLS_SESSION_PARAM_STRUCT_VERSION` is
rejected by the binary-decode constructor. -/
theorem magic_version_rejection :
    (∀ buf key : List Nat, beVal (buf.take 4) ≠ SESSION_CRYPTO_MAGIC →
      Session_decrypt buf key = none) ∧
    (∀ v : Nat, v ≠ TLS_SESSION_PARAM_STRUCT_VERSION → ∀ r : List Nat,
      Session_decode (encTLV 0x30 (encInt v ++ r)) = none) := by
  constructor
  · intro buf key h
    rw [Session_decrypt, Session_decryptE, Session_decryptInner]
    by_cases hlen : buf.length < 136
    · rw [if_pos hlen]
      rfl
    · rw [if_neg hlen, if_pos h]
      rfl
  · intro v hv r
    have h1 : Session_decode (encTLV 0x30 (encInt v ++ r)) =
        decodeFields (encInt v ++ r) := by
      rw [Session_decode, readTLV_encTLV_nil]
      rfl
    rw [h1]
    simp only [decodeFields, readInt_encInt]
    rw [if_pos hv]

/-- Witness for C8: a concrete all-zero-magic blob and the version value 0. -/
theorem magic_version_rejection_witness :
    Session_decrypt bufBadMagic wKey = none ∧
    Session_decode (encTLV 0x30 (encInt 0 ++ [])) = none :=
  ⟨magic_version_rejection.1 bufBadMagic wKey (by decide),
    magic_version_rejection.2 0 (by decide) []⟩

/-- Counterexample for C9: the binary-decode constructor performs no
master-secret length check; this concrete encoding carries an empty (hence
below 48-byte minimum) master secret and still decodes successfully. -/
theorem decode_short_master_accepted :
    Session_decode (DER_encode wShortRec) = some wShortRec ∧
    wShortRec.master_secret.length < 48 :=
  ⟨Session_decode_DER_encode wShortRec, by decide⟩

/-- Claim C9 as amended: the binary-decode constructor enforces no minimum
on the master-secret field — a record whose master secret is shorter than 48
bytes still encodes and decodes unchanged; the only length guard related to
the 48-byte minimum master secret is `decrypt`'s 136-byte minimum blob
length (`decrypt_min_length`). -/
theorem decode_no_master_min (R : SessionRecord)
    (h : R.master_secret.length < 48) :
    Session_decode (DER_encode R) = some R :=
  Session_decode_DER_encode R

/-- Witness for the amended C9 at a record with an empty master secret. -/
theorem decode_no_master_min_witness :
    wShortRec.master_secret.length < 48 ∧
    Session_decode (DER_encode wShortRec) = some wShortRec :=
  ⟨by decide, decode_no_master_min wShortRec (by decide)⟩

/-- Claim C10: the connection-side byte is decoded with no range check —
for any byte value `b` (including values other than 0 and 1) an otherwise
well-formed encoding carrying `b` in the side field decodes successfully,
and the resulting record's side equals the raw value. -/
theorem decode_side_unchecked (R : SessionRecord) (b : Nat) (hb : b < 256) :
    Session_decode (DER_encode { R with connection_side := b }) =
      some { R with connection_side := b } ∧
    ({ R with connection_side := b } : SessionRecord).connection_side = b :=
  ⟨Session_decode_DER_encode _, rfl⟩

/-- Witness for C10 with side value 7 (not a legal `Connection_Side`). -/
theorem decode_side_unchecked_witness :
    (7 : Nat) < 256 ∧
    Session_decode (DER_encode { wRec with connection_side := 7 }) =
      some { wRec with connection_side := 7 } :=
  ⟨by decide, (decode_side_unchecked wRec 7 (by decide)).1⟩

/-- Claim C4: in `Session::decrypt` the MAC is recomputed over everything
except the trailing tag (`MacValid` is by definition the comparison of
`storedTag` against the MAC of `macData`, the whole buffer minus the last 32
bytes) and verified before the cipher key is derived and before any
decryption is attempted: when the tag does not verify the call fails and the
derive/decrypt stages are never reached, and whenever those stages appear in
the performed-stage list the MAC comparison succeeded, with `macVerify`
strictly before `decryptCt`. -/
theorem decrypt_mac_before_decrypt (buf key : List Nat) :
    (¬ MacValid buf key → Session_decrypt buf key = none ∧
      DStep.deriveCipherKey ∉ decryptSteps buf key ∧
      DStep.decryptCt ∉ decryptSteps buf key) ∧
    (DStep.deriveCipherKey ∈ decryptSteps buf key → MacValid buf key) ∧
    (DStep.decryptCt ∈ decryptSteps buf key → MacValid buf key) ∧
    (DStep.decryptCt ∈ decryptSteps buf key →
      DStep.macVerify ∈ (decryptSteps buf key).takeWhile
        (fun s => !(s == DStep.decryptCt))) := by
  by_cases h1 : buf.length < 136
  · rw [Session_decrypt, Session_decryptE, Session_decryptInner, if_pos h1]
    rw [show decryptSteps buf key = [DStep.lenCheck] from by
      rw [decryptSteps, if_pos h1]]
    exact ⟨fun _ => ⟨rfl, by decide, by decide⟩,
      fun h => absurd h (by decide), fun h => absurd h (by decide),
      fun h => absurd h (by decide)⟩
  · by_cases h2 : beVal (buf.take 4) ≠ SESSION_CRYPTO_MAGIC
    · rw [Session_decrypt, Session_decryptE, Session_decryptInner, if_neg h1,
        if_pos h2]
      rw [show decryptSteps buf key = [DStep.lenCheck, DStep.magicCheck] from by
        rw [decryptSteps, if_neg h1, if_pos h2]]
      exact ⟨fun _ => ⟨rfl, by decide, by decide⟩,
        fun h => absurd h (by decide), fun h => absurd h (by decide),
        fun h => absurd h (by decide)⟩
    · by_cases h3 : storedTag buf ≠ computedTag buf key
      · rw [Session_decrypt, Session_decryptE, Session_decryptInner, if_neg h1,
          if_neg h2, if_pos h3]
        rw [show decryptSteps buf key = [DStep.lenCheck, DStep.magicCheck,
            DStep.deriveMacKey, DStep.computeMac, DStep.macVerify] from by
          rw [decryptSteps, if_neg h1, if_neg h2, if_pos h3]]
        exact ⟨fun _ => ⟨rfl, by decide, by decide⟩,
          fun h => absurd h (by decide), fun h => absurd h (by decide),
          fun h => absurd h (by decide)⟩
      · have hmv : MacValid buf key := not_ne_iff.mp h3
        refine ⟨fun hnv => absurd hmv hnv, fun _ => hmv, fun _ => hmv, ?_⟩
        intro _
        rw [decryptSteps, if_neg h1, if_neg h2, if_neg h3]
        cases cipherDec (kdf 32 key (cipherSaltOf buf)) (ivOf buf) (ctOf buf) with
        | none => decide
        | some pt =>
          show DStep.macVerify ∈ List.takeWhile (fun s => !(s == DStep.decryptCt))
            [DStep.lenCheck, DStep.magicCheck, DStep.deriveMacKey,
              DStep.computeMac, DStep.macVerify, DStep.deriveCipherKey,
              DStep.decryptCt, DStep.decodePt]
          decide

/-- Witness for C4: on a blob whose tag does not verify, the call fails and
the cipher-key-derivation and decryption stages never happen. -/
theorem decrypt_mac_before_decrypt_witness :
    Session_decrypt bufBadMagic wKey = none ∧
    DStep.deriveCipherKey ∉ decryptSteps bufBadMagic wKey ∧
    DStep.decryptCt ∉ decryptSteps bufBadMagic wKey :=
  (decrypt_mac_before_decrypt bufBadMagic wKey).1 (by decide)

/-- Counterexample for C7: the rewrap appends the original cause text
(`"Failed to decrypt encrypted session -" + e.what()`), so a too-short blob
and a wrong-magic blob produce different error messages — the detailed cause
IS distinguishable by the caller, contrary to the claim. -/
theorem decrypt_error_distinguishable :
    Session_decryptE bufShort wKey = .error
      "Failed to decrypt encrypted session -Encrypted TLS session too short to be valid" ∧
    Session_decryptE bufBadMagic wKey = .error
      "Failed to decrypt encrypted session -Unknown header value in encrypted session" ∧
    ("Failed to decrypt encrypted session -Encrypted TLS session too short to be valid" ≠
      "Failed to decrypt encrypted session -Unknown header value in encrypted session") :=
  ⟨rfl, rfl, by decide⟩

/-- Claim C7 as amended: every failure of `Session::decrypt` — short length,
magic mismatch, MAC mismatch, or downstream decode failure — is rethrown in
the single `Decoding_Error` category with the uniform message stem
`"Failed to decrypt encrypted session -"`; however the original cause text
is appended to that stem, so the detailed cause remains distinguishable by
message content (only the category, not the message, is uniform). -/
theorem decrypt_error_uniform_category (buf key : List Nat) :
    ∀ e, Session_decryptE buf key = .error e →
      ∃ m, e = "Failed to decrypt encrypted session -" ++ m := by
  intro e he
  rw [Session_decryptE] at he
  cases hi : Session_decryptInner buf key with
  | ok r =>
    rw [hi] at he
    exact absurd he (by simp)
  | error m =>
    rw [hi] at he
    simp at he
    exact ⟨m, he.symm⟩

/-- Witness for the amended C7 at a concrete failing input. -/
theorem decrypt_error_uniform_category_witness :
    ∃ m, "Failed to decrypt encrypted session -Encrypted TLS session too short to be valid" =
      "Failed to decrypt encrypted session -" ++ m :=
  decrypt_error_uniform_category bufShort wKey _ rfl

/-! ## List surgery lemmas for single-byte modifications -/

theorem dropSetOfGe (l : List Nat) (n j x : Nat) (h : n ≤ j) :
    (l.set j x).drop n = (l.drop n).set (j - n) x := by
  induction l generalizing n j with
  | nil => simp
  | cons a t ih =>
    cases n with
    | zero => simp
    | succ n' =>
      cases j with
      | zero => omega
      | succ j' =>
        have hj : j' + 1 - (n' + 1) = j' - n' := by omega
        simp only [List.set_cons_succ, List.drop_succ_cons, hj]
        exact ih n' j' (by omega)

theorem takeSetOfLe (l : List Nat) (n j x : Nat) (h : n ≤ j) :
    (l.set j x).take n = l.take n := by
  rw [List.set_take]
  apply List.set_eq_of_length_le
  have := List.length_take n l
  omega

theorem getD_mem (l : List Nat) (j : Nat) (h : j < l.length) : l.getD j 0 ∈ l := by
  rw [List.getD_eq_getElem _ _ h]
  exact List.getElem_mem h

theorem set_ne_of_getD (l : List Nat) (p x : Nat) (hp : p < l.length)
    (hx : x ≠ l.getD p 0) : l.set p x ≠ l := by
  intro he
  apply hx
  have h1 : (l.set p x).getD p 0 = x := by
    rw [List.getD_eq_getElem _ _ (by simpa using hp)]
    exact List.getElem_set_self (by simpa using hp)
  rw [he] at h1
  exact h1.symm

/-! ## Polynomial-hash sensitivity -/

theorem two_ne_zero_zmod : (2 : ZMod 251) ≠ 0 := by decide

theorem polyZ_flip (pre suf : List Nat) (x y : Nat)
    (h : (x : ZMod 251) ≠ (y : ZMod 251)) :
    polyZ (pre ++ x :: suf) ≠ polyZ (pre ++ y :: suf) := by
  induction pre with
  | nil =>
    simp only [List.nil_append, polyZ]
    intro he
    exact h (add_right_cancel (mul_left_cancel₀ two_ne_zero_zmod he))
  | cons a t ih =>
    simp only [List.cons_append, polyZ]
    intro he
    exact ih (add_left_cancel (mul_left_cancel₀ two_ne_zero_zmod he))

theorem polyZ_set_ne (l : List Nat) (j x : Nat) (hj : j < l.length)
    (hx : (x : ZMod 251) ≠ ((l.getD j 0 : Nat) : ZMod 251)) :
    polyZ (l.set j x) ≠ polyZ l := by
  have hdec : l = l.take j ++ l.getD j 0 :: l.drop (j + 1) := by
    conv_lhs => rw [← List.take_append_drop j l]
    rw [List.drop_eq_getElem_cons hj, List.getD_eq_getElem _ _ hj]
  have hset : l.set j x = l.take j ++ x :: l.drop (j + 1) := by
    rw [List.set_eq_take_append_cons_drop, if_pos hj]
  rw [hset]
  conv_rhs => rw [hdec]
  exact polyZ_flip _ _ _ _ hx

/-- Any single-bit flip of a byte changes it, keeps it a byte, and changes
its residue mod 251 (the flip alters the value by ±2^k with 2^k ≤ 128). -/
theorem flip_byte_facts : ∀ b < 256, ∀ k < 8,
    (b ^^^ 2 ^ k) % 251 ≠ b % 251 ∧ b ^^^ 2 ^ k ≠ b ∧ b ^^^ 2 ^ k < 256 := by
  decide

theorem flip_cast_ne (b k : Nat) (hb : b < 256) (hk : k < 8) :
    ((b ^^^ 2 ^ k : Nat) : ZMod 251) ≠ (b : ZMod 251) := by
  intro he
  exact (flip_byte_facts b hb k hk).1 ((ZMod.natCast_eq_natCast_iff' _ _ _).mp he)

theorem flip_ne (b k : Nat) (hb : b < 256) (hk : k < 8) : b ^^^ 2 ^ k ≠ b :=
  (flip_byte_facts b hb k hk).2.1

/-- Flipping any single bit of the four magic bytes changes the loaded
32-bit value away from the magic constant. -/
theorem magic_flip_ne : ∀ j < 4, ∀ k < 8,
    beVal (magicBytes.set j (magicBytes.getD j 0 ^^^ 2 ^ k)) ≠
      SESSION_CRYPTO_MAGIC := by
  decide

/-! ## Byte bounds of envelope components -/

theorem magicBytes_bytes : ∀ b ∈ magicBytes, b < 256 := by decide

theorem kdf_bytes (olen : Nat) (ikm salt : List Nat)
    (hs : ∀ b ∈ salt, b < 256) : ∀ b ∈ kdf olen ikm salt, b < 256 := by
  intro b hb
  rw [kdf] at hb
  rcases List.mem_cons.mp hb with rfl | hm
  · exact lt_of_lt_of_le (ZMod.val_lt _) (by norm_num)
  · rcases List.mem_append.mp (List.mem_of_mem_take hm) with h | h
    · exact hs b h
    · have := List.eq_of_mem_replicate h
      omega

theorem macTag_bytes (key data : List Nat) (hk : ∀ b ∈ key, b < 256) :
    ∀ b ∈ macTag key data, b < 256 := by
  intro b hb
  rw [macTag] at hb
  rcases List.mem_cons.mp hb with rfl | hm
  · exact lt_of_lt_of_le (ZMod.val_lt _) (by norm_num)
  · rcases List.mem_append.mp (List.mem_of_mem_take hm) with h | h
    · exact hk b h
    · have := List.eq_of_mem_replicate h
      omega

theorem blobOf_bytes (m cs ms iv ct tag : List Nat)
    (hm : ∀ b ∈ m, b < 256) (hcs : ∀ b ∈ cs, b < 256)
    (hms : ∀ b ∈ ms, b < 256) (hiv : ∀ b ∈ iv, b < 256)
    (hct : ∀ b ∈ ct, b < 256) (htag : ∀ b ∈ tag, b < 256) :
    ∀ b ∈ blobOf m cs ms iv ct tag, b < 256 := by
  intro b hb
  rw [blobOf] at hb
  simp only [List.mem_append] at hb
  rcases hb with h | h | h | h | h | h
  · exact hm b h
  · exact hcs b h
  · exact hms b h
  · exact hiv b h
  · exact hct b h
  · exact htag b h

/-- The tag produced with a key derived from a 10-byte salt, in explicit
form: data hash, then key hash, then the salt (padded with zeros). -/
theorem macTag_kdf_eq (key s data : List Nat) (hs : s.length = 10) :
    macTag (kdf 32 key s) data =
      (polyZ data).val :: (polyZ key).val :: (s ++ List.replicate 20 0) := by
  have h1 : (s ++ List.replicate 32 0).take 31 = s ++ List.replicate 21 0 := by
    rw [show (32 : Nat) = 21 + 11 from rfl, List.replicate_add, ← List.append_assoc]
    exact List.take_left' (by rw [List.length_append, hs, List.length_replicate])
  rw [macTag, kdf, show (32 : Nat) - 1 = 31 from rfl, h1]
  congr 1
  rw [List.cons_append, show (31 : Nat) = 30 + 1 from rfl, List.take_succ_cons]
  congr 1
  rw [show (21 : Nat) = 20 + 1 from rfl, List.replicate_add]
  rw [show (s ++ (List.replicate 20 0 ++ List.replicate 1 0)) ++ List.replicate 31 0
    = (s ++ List.replicate 20 0) ++ (List.replicate 1 0 ++ List.replicate 31 0) by simp]
  exact List.take_left' (by rw [List.length_append, hs, List.length_replicate])

/-- Claim C5: tamper detection — flipping any single bit of any byte of a
blob produced by `Session::encrypt` makes `Session::decrypt` under the
correct key fail: a flip in the magic bytes fails the magic check, a flip
anywhere else in the MAC'd prefix (salts, IV, ciphertext) or in the MAC-key
salt changes the recomputed tag, and a flip in the trailing tag changes the
stored tag, so the comparison fails before any decryption; no corrupted
record is ever returned. -/
theorem tamper_detection (R : SessionRecord) (key cs ms iv : List Nat)
    (hR : ValidRecord R) (hcs : cs.length = 10) (hms : ms.length = 10)
    (hiv : iv.length = 16)
    (hcsB : ∀ b ∈ cs, b < 256) (hmsB : ∀ b ∈ ms, b < 256)
    (hivB : ∀ b ∈ iv, b < 256) (j k : Nat)
    (hj : j < (Session_encrypt R key cs ms iv).length) (hk : k < 8) :
    Session_decrypt (flipBitAt (Session_encrypt R key cs ms iv) j k) key = none := by
  have h48 : 48 ≤ R.master_secret.length := by
    obtain ⟨_, _, _, _, _, _, _, _, _, _, _, _, _, h48, _⟩ := hR
    exact h48
  have hm4 : magicBytes.length = 4 := rfl
  have henc := Session_encrypt_eq R key cs ms iv
  set pt := DER_encode R with hptdef
  set ct := cipherEnc (kdf 32 key cs) iv pt with hctdef
  set pre := magicBytes ++ (cs ++ (ms ++ (iv ++ ct))) with hpredef
  set tag := macTag (kdf 32 key ms) pre with htagdef
  set blob := blobOf magicBytes cs ms iv ct tag with hblobdef
  have htag32 : tag.length = 32 := by rw [htagdef]; exact length_macTag _ _
  have hptlen : 52 ≤ pt.length := by rw [hptdef]; exact DER_encode_length_ge R h48
  have hctlen : 64 ≤ ct.length := by
    rw [hctdef, length_cipherEnc]
    have hpl : padLen pt.length = 16 - pt.length % 16 := rfl
    omega
  have hblen : blob.length = 72 + ct.length := by
    rw [hblobdef, blobOf_length, hm4, hcs, hms, hiv, htag32]
    omega
  have hpre_len : pre.length = blob.length - 32 := by
    rw [hpredef]
    simp only [List.length_append]
    rw [hm4, hcs, hms, hiv]
    omega
  have hblob_pre : blob = pre ++ tag := by
    rw [hblobdef, hpredef, blobOf]
    simp
  have hstored : storedTag blob = tag := by
    rw [hblobdef]
    exact storedTag_blobOf _ _ _ _ _ _ hm4 hcs hms hiv htag32
  have hmacD : macData blob = pre := by
    rw [hblobdef, hpredef]
    exact macData_blobOf _ _ _ _ _ _ hm4 hcs hms hiv htag32
  have hsalt : macSaltOf blob = ms := by
    rw [hblobdef]
    exact macSaltOf_blobOf _ _ _ _ _ _ hm4 hcs hms
  have hctB : ∀ b ∈ ct, b < 256 := by
    rw [hctdef]
    exact cipherEnc_bytes _ _ _
  have htagB : ∀ b ∈ tag, b < 256 := by
    rw [htagdef]
    exact macTag_bytes _ _ (kdf_bytes 32 key ms hmsB)
  have hblobB : ∀ b ∈ blob, b < 256 := by
    rw [hblobdef]
    exact blobOf_bytes _ _ _ _ _ _ magicBytes_bytes hcsB hmsB hivB hctB htagB
  rw [henc] at hj
  rw [henc, flipBitAt]
  set x := blob.getD j 0 ^^^ 2 ^ k with hxdef
  have hL : ¬((blob.set j x).length < 136) := by
    rw [List.length_set]
    omega
  by_cases hA : j < 4
  · -- flip inside the magic: the header check fails
    have htake : (blob.set j x).take 4 = magicBytes.set j x := by
      rw [List.set_take]
      have h4 : List.take 4 blob = magicBytes := by
        rw [hblobdef]
        exact blobOf_take_magic _ _ _ _ _ _ hm4
      rw [h4]
    have hgd : blob.getD j 0 = magicBytes.getD j 0 := by
      conv_lhs => rw [hblobdef, blobOf]
      exact List.getD_append _ _ _ _ (by rw [hm4]; omega)
    have hMagFail : beVal ((blob.set j x).take 4) ≠ SESSION_CRYPTO_MAGIC := by
      rw [htake, hxdef, hgd]
      exact magic_flip_ne j hA k hk
    rw [Session_decrypt, Session_decryptE, Session_decryptInner, if_neg hL,
      if_pos hMagFail]
    rfl
  · have hMagOk : ¬(beVal ((blob.set j x).take 4) ≠ SESSION_CRYPTO_MAGIC) := by
      rw [takeSetOfLe _ _ _ _ (by omega), hblobdef,
        blobOf_take_magic _ _ _ _ _ _ hm4]
      decide
    by_cases hF : blob.length - 32 ≤ j
    · -- flip inside the stored tag: the recomputed tag no longer matches
      have hstored' : storedTag (blob.set j x) =
          tag.set (j - (blob.length - 32)) x := by
        rw [storedTag, List.length_set, dropSetOfGe _ _ _ _ hF]
        have hd : List.drop (blob.length - 32) blob = tag := hstored
        rw [hd]
      have hmacD' : macData (blob.set j x) = pre := by
        rw [macData, List.length_set, takeSetOfLe _ _ _ _ hF]
        exact hmacD
      have hsalt' : macSaltOf (blob.set j x) = ms := by
        rw [macSaltOf, dropSetOfGe _ _ _ _ (by omega), takeSetOfLe _ _ _ _ (by omega)]
        exact hsalt
      have hbyte : blob.getD j 0 = tag.getD (j - pre.length) 0 := by
        conv_lhs => rw [hblob_pre]
        exact List.getD_append_right _ _ _ _ (by omega)
      rw [hpre_len] at hbyte
      have hMacFail : storedTag (blob.set j x) ≠ computedTag (blob.set j x) key := by
        rw [hstored', computedTag, hsalt', hmacD', ← htagdef]
        apply set_ne_of_getD _ _ _ (by omega)
        rw [hxdef, hbyte]
        exact flip_ne _ k (htagB _ (getD_mem tag _ (by omega))) hk
      rw [Session_decrypt, Session_decryptE, Session_decryptInner, if_neg hL,
        if_neg hMagOk, if_pos hMacFail]
      rfl
    · have hjlt : j < blob.length - 32 := by omega
      have hstored' : storedTag (blob.set j x) = tag := by
        rw [storedTag, List.length_set, List.drop_set_of_lt _ _ hjlt]
        exact hstored
      have hmacD' : macData (blob.set j x) = pre.set j x := by
        rw [macData, List.length_set, List.set_take]
        have ht : List.take (blob.length - 32) blob = pre := hmacD
        rw [ht]
      by_cases hC : 14 ≤ j ∧ j < 24
      · -- flip inside the MAC-key salt: the derived MAC key changes
        obtain ⟨hC1, hC2⟩ := hC
        have hsalt' : macSaltOf (blob.set j x) = ms.set (j - 14) x := by
          rw [macSaltOf, dropSetOfGe _ _ _ _ hC1, List.set_take]
          have hs10 : List.take 10 (List.drop 14 blob) = ms := hsalt
          rw [hs10]
        have hx14 : blob = (magicBytes ++ cs) ++ (ms ++ (iv ++ (ct ++ tag))) := by
          rw [hblobdef, blobOf]
          simp
        have h14len : (magicBytes ++ cs).length = 14 := by
          rw [List.length_append, hm4, hcs]
        have hbyte : blob.getD j 0 = ms.getD (j - 14) 0 := by
          conv_lhs => rw [hx14]
          rw [List.getD_append_right _ _ _ _ (by omega), h14len]
          exact List.getD_append _ _ _ _ (by rw [hms]; omega)
        have hmsne : ms.set (j - 14) x ≠ ms := by
          apply set_ne_of_getD _ _ _ (by rw [hms]; omega)
          rw [hxdef, hbyte]
          exact flip_ne _ k (hmsB _ (getD_mem ms _ (by rw [hms]; omega))) hk
        have hMacFail : storedTag (blob.set j x) ≠ computedTag (blob.set j x) key := by
          rw [hstored', computedTag, hsalt', hmacD', htagdef]
          rw [macTag_kdf_eq _ _ _ hms,
            macTag_kdf_eq _ _ _ (by rw [List.length_set]; exact hms)]
          intro heq
          simp only [List.cons.injEq] at heq
          exact hmsne (List.append_cancel_right heq.2.2).symm
        rw [Session_decrypt, Session_decryptE, Session_decryptInner, if_neg hL,
          if_neg hMagOk, if_pos hMacFail]
        rfl
      · -- flip in cipher-key salt, IV or ciphertext: the MAC input changes
        have hjpre : j < pre.length := by omega
        have hsalt' : macSaltOf (blob.set j x) = ms := by
          rcases Nat.lt_or_ge j 14 with h14 | h14
          · rw [macSaltOf, List.drop_set_of_lt _ _ h14]
            exact hsalt
          · have h24 : 24 ≤ j := by omega
            rw [macSaltOf, dropSetOfGe _ _ _ _ (by omega), takeSetOfLe _ _ _ _ (by omega)]
            exact hsalt
        have hbyte : blob.getD j 0 = pre.getD j 0 := by
          conv_lhs => rw [hblob_pre]
          exact List.getD_append _ _ _ _ hjpre
        have hb256 : pre.getD j 0 < 256 := hbyte ▸ hblobB _ (getD_mem blob j hj)
        have hpolyne : polyZ (pre.set j x) ≠ polyZ pre := by
          apply polyZ_set_ne _ _ _ hjpre
          rw [hxdef, hbyte]
          exact flip_cast_ne _ k hb256 hk
        have hMacFail : storedTag (blob.set j x) ≠ computedTag (blob.set j x) key := by
          rw [hstored', computedTag, hsalt', hmacD', htagdef, macTag, macTag]
          intro heq
          simp only [List.cons.injEq] at heq
          exact hpolyne (ZMod.val_injective 251 heq.1).symm
        rw [Session_decrypt, Session_decryptE, Session_decryptInner, if_neg hL,
          if_neg hMagOk, if_pos hMacFail]
        rfl

/-- Witness for C5: flipping bit 0 of byte 0 of a concrete blob makes
decryption fail. -/
theorem tamper_detection_witness :
    Session_decrypt (flipBitAt (Session_encrypt wRec wKey wCSalt wMSalt wIv) 0 0)
      wKey = none :=
  tamper_detection wRec wKey wCSalt wMSalt wIv (by decide) (by decide) (by decide)
    (by decide) (by decide) (by decide) (by decide) 0 0 (by decide) (by decide)
